import Mathlib

/-!
Verification of the `flow` git-workflow CLI.

The pure string/branch logic of the repository is shallowly embedded on
`List Char` (JS strings); the effectful workflow code is embedded as pure
functions over explicit state (file system, environment, shell results).
Each definition mirrors one source function and keeps its name.
-/

namespace Flow

/-! ## Generic list helpers (JS string primitives) -/

/-- Boolean prefix check on char lists (JS `String.startsWith`). -/
def startsWithList : List Char → List Char → Bool
  | [], _ => true
  | _ :: _, [] => false
  | a :: as, b :: bs => if a = b then startsWithList as bs else false

/-- Boolean substring check (JS `String.includes`): scan every position. -/
def jsIncludes (hay pat : List Char) : Bool :=
  match hay with
  | [] => pat.isEmpty
  | _ :: t => startsWithList pat hay || jsIncludes t pat

theorem startsWithList_iff (pat hay : List Char) :
    startsWithList pat hay = true ↔ ∃ t, hay = pat ++ t := by
  induction pat generalizing hay with
  | nil => simp [startsWithList]
  | cons a as ih =>
    cases hay with
    | nil =>
      constructor
      · intro h; exact absurd h (by simp [startsWithList])
      · rintro ⟨t, ht⟩; exact absurd ht (by simp)
    | cons b bs =>
      by_cases hab : a = b
      · subst hab
        simp only [startsWithList, if_pos rfl, ite_true, ih, List.cons_append, List.cons.injEq,
          eq_self_iff_true, true_and]
      · simp only [startsWithList, if_neg hab]
        constructor
        · intro h; exact absurd h (by simp)
        · rintro ⟨t, ht⟩
          rw [List.cons_append] at ht
          injection ht with h1 h2
          exact absurd h1.symm hab

theorem jsIncludes_iff (hay pat : List Char) :
    jsIncludes hay pat = true ↔ ∃ s t, hay = s ++ pat ++ t := by
  induction hay with
  | nil =>
    cases pat <;> simp [jsIncludes]
  | cons c rest ih =>
    simp only [jsIncludes, Bool.or_eq_true, startsWithList_iff, ih]
    constructor
    · rintro (⟨t, ht⟩ | ⟨s, t, ht⟩)
      · exact ⟨[], t, by simpa using ht⟩
      · exact ⟨c :: s, t, by simp [ht]⟩
    · rintro ⟨s, t, ht⟩
      cases s with
      | nil => exact Or.inl ⟨t, by simpa using ht⟩
      | cons x xs =>
        right
        refine ⟨xs, t, ?_⟩
        simpa using congrArg List.tail ht

/-- takeWhile over a block that wholly satisfies the predicate, followed by a
failing element, returns exactly the block. -/
theorem takeWhile_block {p : Char → Bool} {l : List Char} (h : ∀ c ∈ l, p c = true)
    {c : Char} (hc : p c = false) (r : List Char) :
    (l ++ c :: r).takeWhile p = l := by
  induction l with
  | nil => simp [List.takeWhile, hc]
  | cons a as ih =>
    have ha : p a = true := h a (by simp)
    simp only [List.cons_append, List.takeWhile_cons, ha, if_true]
    rw [ih fun x hx => h x (by simp [hx])]

/-- dropWhile counterpart of `takeWhile_block`. -/
theorem dropWhile_block {p : Char → Bool} {l : List Char} (h : ∀ c ∈ l, p c = true)
    {c : Char} (hc : p c = false) (r : List Char) :
    (l ++ c :: r).dropWhile p = c :: r := by
  induction l with
  | nil => simp [List.dropWhile, hc]
  | cons a as ih =>
    have ha : p a = true := h a (by simp)
    simp only [List.cons_append, List.dropWhile_cons, ha, if_true]
    exact ih fun x hx => h x (by simp [hx])

theorem takeWhile_all {p : Char → Bool} {l : List Char} (h : ∀ c ∈ l, p c = true) :
    l.takeWhile p = l := by
  induction l with
  | nil => rfl
  | cons a as ih =>
    simp only [List.takeWhile_cons, h a (by simp), if_true]
    rw [ih fun x hx => h x (by simp [hx])]

theorem dropWhile_all {p : Char → Bool} {l : List Char} (h : ∀ c ∈ l, p c = true) :
    l.dropWhile p = [] := by
  induction l with
  | nil => rfl
  | cons a as ih =>
    simp only [List.dropWhile_cons, h a (by simp), if_true]
    exact ih fun x hx => h x (by simp [hx])

/-! ## linear.ts : detectLinearIssue (claim C6) -/

/-- Attempt of the regex body `([a-zA-Z]+-\d+)-` right after a `/`:
a maximal nonempty letter run, a dash, a maximal nonempty digit run, a dash.
Returns the captured `letters-digits` text. -/
def matchIdAfterSlash (cs : List Char) : Option (List Char) :=
  let letters := cs.takeWhile Char.isAlpha
  if letters.isEmpty then none
  else
    match cs.dropWhile Char.isAlpha with
    | [] => none
    | c :: r1 =>
      if c = '-' then
        let digits := r1.takeWhile Char.isDigit
        if digits.isEmpty then none
        else
          match r1.dropWhile Char.isDigit with
          | [] => none
          | c2 :: _ => if c2 = '-' then some (letters ++ '-' :: digits) else none
      else none

/-- Leftmost-match scan of the regex `\/([a-zA-Z]+-\d+)-` (JS `String.match`). -/
def scanLinear : List Char → Option (List Char)
  | [] => none
  | c :: rest =>
    if c = '/' then
      match matchIdAfterSlash rest with
      | some id => some id
      | none => scanLinear rest
    else scanLinear rest

/-- Embedding of `detectLinearIssue` (src/workflows/linear.ts): first match of
`\/([a-zA-Z]+-\d+)-` in the branch name, upper-cased, else null. -/
def detectLinearIssue (branch : String) : Option String :=
  (scanLinear branch.data).map fun id => String.mk (id.map Char.toUpper)

/-- Embedding of `hasLinearPattern`. -/
def hasLinearPattern (branch : String) : Bool :=
  (detectLinearIssue branch).isSome

/-- Spec-side shape: the branch contains slash, letters, dash, digits, dash. -/
def LinearShape (cs : List Char) : Prop :=
  ∃ p a d q, cs = p ++ '/' :: (a ++ '-' :: (d ++ '-' :: q)) ∧
    a ≠ [] ∧ (∀ c ∈ a, c.isAlpha = true) ∧ d ≠ [] ∧ (∀ c ∈ d, c.isDigit = true)

theorem matchIdAfterSlash_of_shape {a d : List Char} (q : List Char)
    (ha : a ≠ []) (hal : ∀ c ∈ a, c.isAlpha = true)
    (hd : d ≠ []) (hdig : ∀ c ∈ d, c.isDigit = true) :
    matchIdAfterSlash (a ++ '-' :: (d ++ '-' :: q)) = some (a ++ '-' :: d) := by
  have hdash : ('-' : Char).isAlpha = false := by decide
  have hdashd : ('-' : Char).isDigit = false := by decide
  unfold matchIdAfterSlash
  rw [takeWhile_block hal hdash, dropWhile_block hal hdash]
  simp only [List.isEmpty_eq_true, ha, if_neg (by simpa using ha)]
  rw [takeWhile_block hdig hdashd, dropWhile_block hdig hdashd]
  simp [hd]

theorem shape_of_matchIdAfterSlash {cs id : List Char}
    (h : matchIdAfterSlash cs = some id) :
    ∃ a d q, cs = a ++ '-' :: (d ++ '-' :: q) ∧
      a ≠ [] ∧ (∀ c ∈ a, c.isAlpha = true) ∧ d ≠ [] ∧ (∀ c ∈ d, c.isDigit = true) ∧
      id = a ++ '-' :: d := by
  simp only [matchIdAfterSlash] at h
  split at h
  · exact absurd h (by simp)
  · rename_i hae
    split at h
    · exact absurd h (by simp)
    · rename_i c r1 hdrop
      split at h
      · rename_i hcdash
        subst hcdash
        split at h
        · exact absurd h (by simp)
        · rename_i hde
          split at h
          · exact absurd h (by simp)
          · rename_i c2 q hdrop2
            split at h
            · rename_i hc2
              subst hc2
              simp only [Option.some.injEq] at h
              have hr1 : r1 = r1.takeWhile Char.isDigit ++ '-' :: q := by
                conv_lhs => rw [← List.takeWhile_append_dropWhile (p := Char.isDigit) (l := r1)]
                rw [hdrop2]
              have hcs2 : cs = cs.takeWhile Char.isAlpha ++ '-' :: r1 := by
                conv_lhs => rw [← List.takeWhile_append_dropWhile (p := Char.isAlpha) (l := cs)]
                rw [hdrop]
              refine ⟨cs.takeWhile Char.isAlpha, r1.takeWhile Char.isDigit, q, ?_, ?_, ?_, ?_,
                ?_, h.symm⟩
              · exact hcs2.trans
                  (congrArg (fun l => cs.takeWhile Char.isAlpha ++ '-' :: l) hr1)
              · simpa using hae
              · intro x hx; exact List.mem_takeWhile_imp hx
              · simpa using hde
              · intro x hx; exact List.mem_takeWhile_imp hx
            · exact absurd h (by simp)
      · exact absurd h (by simp)

theorem scanLinear_some {cs id : List Char} (h : scanLinear cs = some id) :
    ∃ p tail, cs = p ++ '/' :: tail ∧ matchIdAfterSlash tail = some id := by
  induction cs with
  | nil => simp [scanLinear] at h
  | cons c rest ih =>
    by_cases hc : c = '/'
    · subst hc
      rw [scanLinear, if_pos rfl] at h
      cases hm : matchIdAfterSlash rest with
      | some id2 =>
        rw [hm] at h
        simp only [Option.some.injEq] at h
        exact ⟨[], rest, by simp, by rw [hm, h]⟩
      | none =>
        rw [hm] at h
        obtain ⟨p, tail, hp, hmt⟩ := ih h
        exact ⟨'/' :: p, tail, by simp [hp], hmt⟩
    · rw [scanLinear, if_neg hc] at h
      obtain ⟨p, tail, hp, hmt⟩ := ih h
      exact ⟨c :: p, tail, by simp [hp], hmt⟩

theorem scanLinear_none {cs : List Char} (h : scanLinear cs = none) :
    ¬ ∃ p tail, cs = p ++ '/' :: tail ∧ (matchIdAfterSlash tail).isSome = true := by
  induction cs with
  | nil =>
    rintro ⟨p, tail, hp, _⟩
    exact absurd hp (by simp)
  | cons c rest ih =>
    rintro ⟨p, tail, hp, hm⟩
    by_cases hc : c = '/'
    · subst hc
      rw [scanLinear, if_pos rfl] at h
      cases hmr : matchIdAfterSlash rest with
      | some id2 => rw [hmr] at h; exact absurd h (by simp)
      | none =>
        rw [hmr] at h
        cases p with
        | nil =>
          simp only [List.nil_append, List.cons.injEq] at hp
          rw [← hp.2, hmr] at hm
          exact absurd hm (by simp)
        | cons x p2 =>
          rw [List.cons_append] at hp
          injection hp with h1 h2
          exact ih h ⟨p2, tail, h2, hm⟩
    · rw [scanLinear, if_neg hc] at h
      cases p with
      | nil =>
        simp only [List.nil_append, List.cons.injEq] at hp
        exact hc hp.1
      | cons x p2 =>
        rw [List.cons_append] at hp
        injection hp with h1 h2
        exact ih h ⟨p2, tail, h2, hm⟩

theorem linearShape_iff (cs : List Char) :
    LinearShape cs ↔ ∃ p tail, cs = p ++ '/' :: tail ∧ (matchIdAfterSlash tail).isSome = true := by
  constructor
  · rintro ⟨p, a, d, q, hcs, ha, hal, hd, hdig⟩
    exact ⟨p, a ++ '-' :: (d ++ '-' :: q), hcs,
      by rw [matchIdAfterSlash_of_shape q ha hal hd hdig]; rfl⟩
  · rintro ⟨p, tail, hcs, hm⟩
    obtain ⟨id, hid⟩ := Option.isSome_iff_exists.mp hm
    obtain ⟨a, d, q, htail, ha, hal, hd, hdig, _⟩ := shape_of_matchIdAfterSlash hid
    exact ⟨p, a, d, q, by rw [hcs, htail], ha, hal, hd, hdig⟩

/-- C6: detectLinearIssue returns, for every branch name containing a substring
slash + letters + dash + digits + dash, a matched letters-dash-digits identifier
uppercased (e.g. "aaron/dev-123-feature" yields "DEV-123"), and returns null
for every branch name without such a substring (e.g. "main"). -/
theorem detectLinearIssue_correct :
    (∀ s : String, LinearShape s.data → (detectLinearIssue s).isSome = true)
    ∧ (∀ (s : String) (id : String), detectLinearIssue s = some id →
        ∃ p a d q, s.data = p ++ '/' :: (a ++ '-' :: (d ++ '-' :: q)) ∧
          a ≠ [] ∧ (∀ c ∈ a, c.isAlpha = true) ∧ d ≠ [] ∧ (∀ c ∈ d, c.isDigit = true) ∧
          id = String.mk ((a ++ '-' :: d).map Char.toUpper))
    ∧ (∀ s : String, ¬ LinearShape s.data → detectLinearIssue s = none)
    ∧ detectLinearIssue "aaron/dev-123-feature" = some "DEV-123"
    ∧ detectLinearIssue "main" = none := by
  refine ⟨?_, ?_, ?_, by decide, by decide⟩
  · intro s hs
    obtain ⟨p, tail, hcs, hm⟩ := (linearShape_iff s.data).mp hs
    obtain ⟨id, hid⟩ := Option.isSome_iff_exists.mp hm
    have : scanLinear s.data ≠ none := by
      intro hn
      exact scanLinear_none hn ⟨p, tail, hcs, hm⟩
    cases hsc : scanLinear s.data with
    | none => exact absurd hsc this
    | some v => simp [detectLinearIssue, hsc]
  · intro s id h
    unfold detectLinearIssue at h
    cases hsc : scanLinear s.data with
    | none => rw [hsc] at h; exact absurd h (by simp)
    | some v =>
      rw [hsc] at h
      simp at h
      obtain ⟨p, tail, hcs, hm⟩ := scanLinear_some hsc
      obtain ⟨a, d, q, htail, ha, hal, hd, hdig, hida⟩ := shape_of_matchIdAfterSlash hm
      exact ⟨p, a, d, q, by rw [hcs, htail], ha, hal, hd, hdig, by rw [← h, hida]⟩
  · intro s hs
    cases hsc : scanLinear s.data with
    | none => simp [detectLinearIssue, hsc]
    | some v =>
      exfalso
      obtain ⟨p, tail, hcs, hm⟩ := scanLinear_some hsc
      exact hs ((linearShape_iff s.data).mpr ⟨p, tail, hcs, by rw [hm]; rfl⟩)

/-- Witness for the hypotheses of detectLinearIssue_correct at concrete inputs. -/
theorem detectLinearIssue_correct_witness :
    (∃ p a d q, ("aaron/dev-123-feature" : String).data =
        p ++ '/' :: (a ++ '-' :: (d ++ '-' :: q)) ∧
        a ≠ [] ∧ (∀ c ∈ a, c.isAlpha = true) ∧ d ≠ [] ∧ (∀ c ∈ d, c.isDigit = true) ∧
        ("DEV-123" : String) = String.mk ((a ++ '-' :: d).map Char.toUpper))
    ∧ (detectLinearIssue "aaron/dev-123-feature").isSome = true := by
  constructor
  · exact detectLinearIssue_correct.2.1 "aaron/dev-123-feature" "DEV-123" (by decide)
  · exact detectLinearIssue_correct.1 "aaron/dev-123-feature"
      ⟨"aaron".data, "dev".data, "123".data, "feature".data, by decide, by decide, by decide,
        by decide, by decide⟩

/-! ## linear.ts : cleanTitleForLinear (claim C4) -/

/-- Conventional-commit type keywords of the regex alternation in
cleanTitleForLinear. -/
def conventionalTypes : List (List Char) :=
  ["feat", "fix", "docs", "style", "refactor", "test", "chore", "perf", "ci",
    "build", "revert"].map String.data

/-- Case-insensitive literal-prefix strip (the `i` flag of the regex). -/
def ciStrip : List Char → List Char → Option (List Char)
  | [], cs => some cs
  | _ :: _, [] => none
  | k :: kw, c :: cs => if k.toLower = c.toLower then ciStrip kw cs else none

/-- Try the keyword alternatives in order; none is a prefix of another, so at
most one can match. -/
def firstTypeStrip : List (List Char) → List Char → Option (List Char)
  | [], _ => none
  | kw :: rest, cs =>
    match ciStrip kw cs with
    | some r => some r
    | none => firstTypeStrip rest cs

/-- Literal `: ` of the regex. -/
def colonSpace : List Char → Option (List Char)
  | ':' :: ' ' :: rest => some rest
  | _ => none

/-- The `\([^)]+\): ` part: parenthesized nonempty scope then colon-space. -/
def scopeColonSpace (cs : List Char) : Option (List Char) :=
  match cs with
  | '(' :: r =>
    if (r.takeWhile (· != ')')).isEmpty then none
    else
      match r.dropWhile (· != ')') with
      | ')' :: rest => colonSpace rest
      | _ => none
  | _ => none

/-- The `(\([^)]+\))?: ` part: greedy optional scope group with backtracking
to the empty alternative. -/
def afterTypeMatch (cs : List Char) : Option (List Char) :=
  match scopeColonSpace cs with
  | some r => some r
  | none => colonSpace cs

/-- Embedding of `cleanTitleForLinear` (src/workflows/linear.ts):
`pr_title.replace(/^(feat|fix|...)(\([^)]+\))?: /i, "")`. -/
def cleanTitleForLinear (s : String) : String :=
  match firstTypeStrip conventionalTypes s.data with
  | none => s
  | some rest =>
    match afterTypeMatch rest with
    | some r => String.mk r
    | none => s

/-- Spec-side check: does the title begin with `type: ` (colon-space shape)? -/
def startsColonSpace : List Char → Bool
  | ':' :: ' ' :: _ => true
  | _ => false

/-- Spec-side check: does the title continue with `(scope): ` for a nonempty
scope without a closing parenthesis inside? -/
def startsScopeColonSpace : List Char → Bool
  | '(' :: r =>
    !(r.takeWhile (· != ')')).isEmpty &&
      (match r.dropWhile (· != ')') with
       | ')' :: rest => startsColonSpace rest
       | _ => false)
  | _ => false

/-- Spec-side predicate: the title begins, case-insensitively, with a
conventional-commit prefix `type(scope): ` or `type: ` for one of the fixed
type keywords. -/
def hasConvTag (s : String) : Bool :=
  conventionalTypes.any fun kw =>
    match ciStrip kw s.data with
    | none => false
    | some rest => startsColonSpace rest || startsScopeColonSpace rest

theorem firstTypeStrip_some {l : List (List Char)} {cs rest : List Char}
    (h : firstTypeStrip l cs = some rest) : ∃ kw ∈ l, ciStrip kw cs = some rest := by
  induction l with
  | nil => exact absurd h (by simp [firstTypeStrip])
  | cons kw ks ih =>
    rw [firstTypeStrip] at h
    cases hc : ciStrip kw cs with
    | some r =>
      rw [hc] at h
      simp only [Option.some.injEq] at h
      exact ⟨kw, by simp, by rw [hc, h]⟩
    | none =>
      rw [hc] at h
      obtain ⟨kw2, hmem, hc2⟩ := ih h
      exact ⟨kw2, by simp [hmem], hc2⟩

theorem colonSpace_some {cs r : List Char} (h : colonSpace cs = some r) :
    startsColonSpace cs = true := by
  unfold colonSpace at h
  split at h
  · rfl
  · exact absurd h (by simp)

theorem scopeColonSpace_some {cs r : List Char} (h : scopeColonSpace cs = some r) :
    startsScopeColonSpace cs = true := by
  unfold scopeColonSpace at h
  split at h
  · rename_i r1
    split at h
    · exact absurd h (by simp)
    · rename_i hne
      split at h
      · rename_i rest hdrop
        rw [startsScopeColonSpace, hdrop]
        simp only [Bool.and_eq_true, Bool.not_eq_true']
        exact ⟨by simpa using hne, colonSpace_some h⟩
      · exact absurd h (by simp)
  · exact absurd h (by simp)

theorem afterTypeMatch_some {cs r : List Char} (h : afterTypeMatch cs = some r) :
    (startsColonSpace cs || startsScopeColonSpace cs) = true := by
  unfold afterTypeMatch at h
  cases hs : scopeColonSpace cs with
  | some r2 => simp [scopeColonSpace_some hs]
  | none =>
    rw [hs] at h
    simp [colonSpace_some h]

theorem cleanTitle_changes_hasConvTag (s : String)
    (h : cleanTitleForLinear s ≠ s) : hasConvTag s = true := by
  unfold cleanTitleForLinear at h
  cases hf : firstTypeStrip conventionalTypes s.data with
  | none => simp only [hf] at h; exact absurd rfl h
  | some rest =>
    simp only [hf] at h
    cases ha : afterTypeMatch rest with
    | none => simp only [ha] at h; exact absurd rfl h
    | some r =>
      obtain ⟨kw, hkwmem, hci⟩ := firstTypeStrip_some hf
      unfold hasConvTag
      rw [List.any_eq_true]
      refine ⟨kw, hkwmem, ?_⟩
      rw [hci]
      exact afterTypeMatch_some ha

/-- C4 (amended): cleanTitleForLinear is idempotent on every title whose
cleaned form does not itself begin, case-insensitively, with a
conventional-commit prefix; the original claim, idempotence for every input,
fails on stacked prefixes (see cleanTitleForLinear_not_idempotent). -/
theorem cleanTitleForLinear_idempotent_of_clean :
    ∀ s : String, hasConvTag (cleanTitleForLinear s) = false →
      cleanTitleForLinear (cleanTitleForLinear s) = cleanTitleForLinear s := by
  intro s h
  by_contra hne
  have htrue := cleanTitle_changes_hasConvTag (cleanTitleForLinear s) hne
  rw [h] at htrue
  cases htrue

/-- C4 counterexample: cleanTitleForLinear is not idempotent on the stacked
title "feat: fix: a", where one application yields "fix: a" and a second
application strips again to "a". -/
theorem cleanTitleForLinear_not_idempotent :
    cleanTitleForLinear "feat: fix: a" = "fix: a" ∧
      cleanTitleForLinear (cleanTitleForLinear "feat: fix: a") ≠
        cleanTitleForLinear "feat: fix: a" := by
  constructor
  · rfl
  · decide

/-- Witness: the amended idempotence applied to the concrete spec scenario
title "feat(auth): Add login". -/
theorem cleanTitleForLinear_idempotent_witness :
    hasConvTag (cleanTitleForLinear "feat(auth): Add login") = false ∧
      cleanTitleForLinear (cleanTitleForLinear "feat(auth): Add login") =
        cleanTitleForLinear "feat(auth): Add login" :=
  ⟨by decide, cleanTitleForLinear_idempotent_of_clean "feat(auth): Add login" (by decide)⟩

/-! ## linear.ts : generateLinearBranchName (claim C7) -/

/-- Username part of generateLinearBranchName: regex `^([^/]+)\/`, i.e. a
nonempty run of non-slash characters followed by a slash, else "feature". -/
def jsUsername (branch : List Char) : List Char :=
  let pre := branch.takeWhile (· != '/')
  if !pre.isEmpty && !(branch.dropWhile (· != '/')).isEmpty then pre
  else "feature".data

/-- JS `branch.split("/").pop()`: the text after the last slash (the whole
string when there is no slash). -/
def lastSegment (branch : List Char) : List Char :=
  (branch.reverse.takeWhile (· != '/')).reverse

/-- JS `... || "work"`: the empty last segment is falsy and replaced. -/
def descPart (branch : List Char) : List Char :=
  let seg := lastSegment branch
  if seg.isEmpty then "work".data else seg

/-- JS replace of every char outside [a-zA-Z0-9-] by a dash. -/
def jsCleanChars (cs : List Char) : List Char :=
  cs.map fun c => if c.isAlphanum || c = '-' then c else '-'

/-- JS replace of every dash run by a single dash: collapse dash runs. -/
def collapseDashes : List Char → List Char
  | [] => []
  | [c] => [c]
  | c1 :: c2 :: rest =>
    if c1 = '-' ∧ c2 = '-' then collapseDashes (c2 :: rest)
    else c1 :: collapseDashes (c2 :: rest)

/-- Leading half of the JS edge-dash removal: drop one leading dash. -/
def jsDropLead (cs : List Char) : List Char :=
  match cs with
  | [] => []
  | c :: r => if c = '-' then r else cs

/-- Trailing half of the JS edge-dash removal: drop one trailing dash. -/
def jsDropTrail (cs : List Char) : List Char :=
  match cs.reverse with
  | [] => cs
  | c :: r2 => if c = '-' then r2.reverse else cs

/-- JS edge-dash removal (one leading and one trailing dash) as applied after collapsing. -/
def trimDashes (cs : List Char) : List Char :=
  jsDropTrail (jsDropLead cs)

/-- The three-step cleanup pipeline of generateLinearBranchName. -/
def cleanDescription (cs : List Char) : List Char :=
  trimDashes (collapseDashes (jsCleanChars cs))

/-- Embedding of `generateLinearBranchName` (src/workflows/linear.ts). -/
def generateLinearBranchName (issue_identifier current_branch : String) : String :=
  String.mk (jsUsername current_branch.data ++ '/' ::
    (issue_identifier.data.map Char.toLower ++ '-' ::
      cleanDescription (descPart current_branch.data)))

mutual

/-- Spec-side collapse: every maximal run of non-alphanumeric characters
becomes a single hyphen (the hyphen is emitted on entering a run, and the
rest of the run is skipped by `specSkip`). -/
def specCollapse : List Char → List Char
  | [] => []
  | c :: rest =>
    if c.isAlphanum then c :: specCollapse rest else '-' :: specSkip rest

/-- Skip the remainder of a non-alphanumeric run, then resume collapsing. -/
def specSkip : List Char → List Char
  | [] => []
  | c :: rest =>
    if c.isAlphanum then c :: specCollapse rest else specSkip rest

end

/-- Spec-side trim: leading and trailing hyphens removed. -/
def specTrimEdges (cs : List Char) : List Char :=
  ((cs.dropWhile (· == '-')).reverse.dropWhile (· == '-')).reverse

/-- Spec-side description cleanup. -/
def specCleanDescription (cs : List Char) : List Char :=
  specTrimEdges (specCollapse cs)

/-- Spec-side (amended) author: the text before the first slash, or "feature"
when the branch has no slash or that text is empty. -/
def specAuthor (branch : List Char) : List Char :=
  if branch.takeWhile (· != '/') = [] ∨ '/' ∉ branch then "feature".data
  else branch.takeWhile (· != '/')

/-- Spec-side (amended) branch name `{author}/{identifier-lowercased}-{description}`,
with description defaulting to "work" when the text after the last slash is empty. -/
def specGenerateLinearBranchName (issue_identifier current_branch : String) : String :=
  String.mk (specAuthor current_branch.data ++ '/' ::
    (issue_identifier.data.map Char.toLower ++ '-' ::
      specCleanDescription (descPart current_branch.data)))

theorem collapseDashes_cons_ne {c : Char} (hc : c ≠ '-') (l : List Char) :
    collapseDashes (c :: l) = c :: collapseDashes l := by
  cases l with
  | nil => rfl
  | cons x xs =>
    rw [collapseDashes, if_neg]
    rintro ⟨h1, _⟩
    exact hc h1

theorem collapseDashes_dash_cons {x : Char} (hx : x ≠ '-') (l : List Char) :
    collapseDashes ('-' :: x :: l) = '-' :: collapseDashes (x :: l) := by
  rw [collapseDashes, if_neg]
  rintro ⟨_, h2⟩
  exact hx h2

theorem collapseDashes_dash_dash (l : List Char) :
    collapseDashes ('-' :: '-' :: l) = collapseDashes ('-' :: l) := by
  rw [collapseDashes, if_pos ⟨rfl, rfl⟩]

theorem jsCleanChars_eq_dash {c : Char} (hc : ¬ c.isAlphanum = true) :
    (if c.isAlphanum || c = '-' then c else '-') = '-' := by
  by_cases hdash : c = '-'
  · simp [hdash]
  · simp [hc, hdash]

theorem collapse_clean_pair (l : List Char) :
    collapseDashes (jsCleanChars l) = specCollapse l ∧
      collapseDashes ('-' :: jsCleanChars l) = '-' :: specSkip l := by
  induction l with
  | nil => exact ⟨rfl, rfl⟩
  | cons c rest ih =>
    by_cases hc : c.isAlphanum
    · have hcne : c ≠ '-' := by
        intro h; rw [h] at hc; exact absurd hc (by decide)
      constructor
      · show collapseDashes ((if c.isAlphanum || c = '-' then c else '-') :: jsCleanChars rest)
          = specCollapse (c :: rest)
        rw [if_pos (by simp [hc]), collapseDashes_cons_ne hcne, ih.1, specCollapse,
          if_pos hc]
      · show collapseDashes ('-' :: (if c.isAlphanum || c = '-' then c else '-') ::
            jsCleanChars rest) = '-' :: specSkip (c :: rest)
        rw [if_pos (by simp [hc]), collapseDashes_dash_cons hcne,
          collapseDashes_cons_ne hcne, ih.1, specSkip, if_pos hc]
    · constructor
      · show collapseDashes ((if c.isAlphanum || c = '-' then c else '-') :: jsCleanChars rest)
          = specCollapse (c :: rest)
        rw [jsCleanChars_eq_dash hc, ih.2, specCollapse, if_neg hc]
      · show collapseDashes ('-' :: (if c.isAlphanum || c = '-' then c else '-') ::
            jsCleanChars rest) = '-' :: specSkip (c :: rest)
        rw [jsCleanChars_eq_dash hc, collapseDashes_dash_dash, ih.2, specSkip, if_neg hc]

/-- No two adjacent dashes. -/
def NoDD (l : List Char) : Prop :=
  List.Chain' (fun a b => ¬(a = '-' ∧ b = '-')) l

theorem noDD_reverse {l : List Char} (h : NoDD l) : NoDD l.reverse := by
  rw [NoDD, List.chain'_reverse]
  exact h.imp fun _ _ hab ⟨h1, h2⟩ => hab ⟨h2, h1⟩

theorem noDD_specCollapse (l : List Char) :
    NoDD (specCollapse l) ∧ NoDD ('-' :: specSkip l) := by
  induction l with
  | nil =>
    exact ⟨List.chain'_nil, List.chain'_singleton '-'⟩
  | cons c rest ih =>
    by_cases hc : c.isAlphanum
    · have hcne : c ≠ '-' := by
        intro h; rw [h] at hc; exact absurd hc (by decide)
      constructor
      · rw [specCollapse, if_pos hc]
        rw [NoDD, List.chain'_cons']
        exact ⟨fun b _ => fun ⟨h1, _⟩ => hcne h1, ih.1⟩
      · rw [specSkip, if_pos hc]
        rw [NoDD, List.chain'_cons]
        refine ⟨fun ⟨_, h2⟩ => hcne h2, ?_⟩
        rw [List.chain'_cons']
        exact ⟨fun b _ => fun ⟨h1, _⟩ => hcne h1, ih.1⟩
    · constructor
      · rw [specCollapse, if_neg hc]
        exact ih.2
      · rw [specSkip, if_neg hc]
        exact ih.2

theorem dropLeadDash {l : List Char} (h : NoDD l) :
    l.dropWhile (· == '-') = jsDropLead l := by
  cases l with
  | nil => rfl
  | cons c r =>
    by_cases hc : c = '-'
    · subst hc
      rw [jsDropLead]
      rw [if_pos rfl, List.dropWhile_cons, if_pos (by simp)]
      cases r with
      | nil => rfl
      | cons c2 r2 =>
        rw [NoDD, List.chain'_cons] at h
        have hc2 : c2 ≠ '-' := fun he => h.1 ⟨rfl, he⟩
        rw [List.dropWhile_cons, if_neg (by simp [hc2])]
    · rw [jsDropLead, if_neg hc, List.dropWhile_cons, if_neg (by simp [hc])]

theorem noDD_jsDropLead {l : List Char} (h : NoDD l) : NoDD (jsDropLead l) := by
  cases l with
  | nil => exact h
  | cons c r =>
    by_cases hc : c = '-'
    · rw [jsDropLead, if_pos hc]
      exact h.tail
    · rw [jsDropLead, if_neg hc]
      exact h

theorem jsDropLead_cons (c : Char) (r : List Char) :
    jsDropLead (c :: r) = if c = '-' then r else c :: r := rfl

theorem jsDropTrail_def (cs : List Char) :
    jsDropTrail cs = match cs.reverse with
      | [] => cs
      | c :: r2 => if c = '-' then r2.reverse else cs := rfl

theorem specTrimEdges_eq_trimDashes {l : List Char} (h : NoDD l) :
    specTrimEdges l = trimDashes l := by
  rw [specTrimEdges, trimDashes, dropLeadDash h]
  have hna : NoDD (jsDropLead l) := noDD_jsDropLead h
  rw [dropLeadDash (noDD_reverse hna)]
  generalize jsDropLead l = b
  cases hrev : b.reverse with
  | nil =>
    have hz : b = [] := by simpa using congrArg List.reverse hrev
    subst hz
    rfl
  | cons c r2 =>
    have haeq : b = (c :: r2).reverse := by simpa using congrArg List.reverse hrev
    simp only [jsDropTrail_def, hrev, jsDropLead_cons]
    by_cases hc : c = '-'
    · simp [hc]
    · simp [hc, haeq]

theorem cleanDescription_eq_spec (cs : List Char) :
    cleanDescription cs = specCleanDescription cs := by
  rw [cleanDescription, specCleanDescription, (collapse_clean_pair cs).1,
    specTrimEdges_eq_trimDashes (noDD_specCollapse cs).1]

theorem jsUsername_eq_specAuthor (branch : List Char) :
    jsUsername branch = specAuthor branch := by
  rw [jsUsername, specAuthor]
  by_cases hpre : branch.takeWhile (· != '/') = []
  · rw [if_pos (Or.inl hpre), if_neg (by simp [hpre])]
  · by_cases hmem : '/' ∈ branch
    · have hdrop : branch.dropWhile (· != '/') ≠ [] := by
        rw [Ne, List.dropWhile_eq_nil_iff]
        push_neg
        exact ⟨'/', hmem, by simp⟩
      rw [if_pos (by simp [hpre, hdrop]), if_neg (by simp [hpre, hmem])]
    · have hdrop : branch.dropWhile (· != '/') = [] := by
        rw [List.dropWhile_eq_nil_iff]
        intro x hx
        simp only [bne_iff_ne, ne_eq]
        intro hxe
        exact hmem (hxe ▸ hx)
      rw [if_neg (by simp [hdrop]), if_pos (Or.inr hmem)]

/-- C7 (amended): generateLinearBranchName returns
`{author}/{identifier-lowercased}-{description}` where author is the text
before the first slash — defaulting to "feature" when the branch has no slash
or that text is empty — and description is the text after the last slash —
defaulting to "work" when empty — with every run of non-alphanumeric
characters collapsed to a single hyphen and the leading/trailing hyphen
removed; in particular the spec scenario (author user, raw description
"-desc!@#-") holds. The original claim's universal clause fails at branch
"user/": see generateLinearBranchName_cex. -/
theorem generateLinearBranchName_correct :
    (∀ issue_identifier current_branch : String,
      generateLinearBranchName issue_identifier current_branch =
        specGenerateLinearBranchName issue_identifier current_branch)
    ∧ generateLinearBranchName "DEV-123" "user/-desc!@#-" = "user/dev-123-desc" := by
  constructor
  · intro id branch
    rw [generateLinearBranchName, specGenerateLinearBranchName,
      jsUsername_eq_specAuthor, cleanDescription_eq_spec]
  · decide

/-- C7 counterexample: at branch "user/" the code substitutes "work" for the
empty text after the last slash and returns "user/dev-123-work", while the
claim as stated yields "user/dev-123-" (empty cleaned description). -/
theorem generateLinearBranchName_cex :
    generateLinearBranchName "DEV-123" "user/" = "user/dev-123-work" ∧
      generateLinearBranchName "DEV-123" "user/" ≠ "user/dev-123-" := by
  constructor
  · decide
  · decide

/-! ## git.ts : protected branches (used by claims C1, C10) -/

/-- Embedding of PROTECTED_BRANCHES (src/workflows/git.ts). -/
def PROTECTED_BRANCHES : List String := ["main", "develop", "staging"]

/-- Embedding of `isProtectedBranch`. -/
def isProtectedBranch (branch : String) : Bool :=
  PROTECTED_BRANCHES.contains branch

/-! ## commit-workflow.ts : staging behaviour (claim C10) -/

/-- Abstract git working-tree snapshot: the three lists reported by
getGitStatus (src/workflows/git.ts). -/
structure GitState where
  staged : List String
  unstaged : List String
  untracked : List String

/-- Abstract effect of `execSync("git add .")` run from the repository root:
every modified/untracked path becomes staged. -/
def gitAddAll (s : GitState) : GitState :=
  ⟨s.staged ++ s.unstaged ++ s.untracked, [], []⟩

/-- The status commitWorkflow observes: it runs `git add .` unconditionally
before calling getGitStatus (commit-workflow.ts line 124-125). -/
def commitWorkflowStatus (s0 : GitState) : GitState :=
  gitAddAll s0

/-- The workflow's emptiness check (all three lists empty means clean exit). -/
def hasAnyChange (s : GitState) : Bool :=
  !(s.staged.isEmpty && s.unstaged.isEmpty && s.untracked.isEmpty)

/-- The guard of the "No files are staged. Stage all changes?" prompt: it is
reached when the tree is not clean but the staged list is empty. -/
def stagePromptReached (s0 : GitState) : Bool :=
  hasAnyChange (commitWorkflowStatus s0) && (commitWorkflowStatus s0).staged.isEmpty

/-- Files included in the commit made by processCommit, which runs
`git add .` again right before `git commit` (commit-workflow.ts line 37-38). -/
def processCommitFiles (s : GitState) : List String :=
  (gitAddAll s).staged

/-- C10: commitWorkflow stages everything before reading the status, so the
"No files are staged" prompt branch is unreachable in every working tree, and
the commit made by processCommit contains every staged, modified and
untracked path of the tree at commit time, whatever was staged beforehand. -/
theorem commitWorkflow_staging :
    (∀ s0 : GitState, stagePromptReached s0 = false)
    ∧ (∀ s : GitState, processCommitFiles s = s.staged ++ s.unstaged ++ s.untracked) := by
  constructor
  · intro s0
    cases h : (s0.staged ++ s0.unstaged ++ s0.untracked).isEmpty <;>
      simp [stagePromptReached, hasAnyChange, commitWorkflowStatus, gitAddAll, h]
  · intro s
    rfl

/-! ## commit-workflow.ts : push-failure handling (claim C1) -/

inductive PushChoice
  | pull
  | rebase
  | force
  | skip
deriving DecidableEq

/-- Outcome of the push-failure handler: the force-push commands it executes
and whether the protected-branch block message was reported. pull/rebase
recovery commands are outside the scope of this claim and not modelled. -/
structure PushFailureOutcome where
  cmds : List String
  blocked : Bool
deriving DecidableEq

def forcePushCmd (branch : String) : String :=
  "git push --force origin " ++ branch

/-- Embedding of the push-failure handling of processCommit in the commit
workflow variant that guards with isProtectedBranch (part_007, lines 93-124):
on a non-fast-forward rejection the select menu applies, otherwise a confirm
prompt offers a simple force push; in both force paths a protected branch is
blocked with an error report and no command runs. -/
def fixedPushFailure (branch : String) (nonFastForward : Bool) (choice : PushChoice)
    (confirmForce : Bool) : PushFailureOutcome :=
  if nonFastForward then
    match choice with
    | .force =>
      if isProtectedBranch branch then ⟨[], true⟩
      else ⟨[forcePushCmd branch], false⟩
    | _ => ⟨[], false⟩
  else
    if confirmForce then
      if isProtectedBranch branch then ⟨[], true⟩
      else ⟨[forcePushCmd branch], false⟩
    else ⟨[], false⟩

/-- Embedding of the same handling in the older variant
src/src/workflows/commit-workflow.ts lines 93-107, which has no protection
check: choosing force always executes `git push --force`. -/
def legacyPushFailure (branch : String) (nonFastForward : Bool) (choice : PushChoice)
    (confirmForce : Bool) : PushFailureOutcome :=
  if nonFastForward then
    match choice with
    | .force => ⟨[forcePushCmd branch], false⟩
    | _ => ⟨[], false⟩
  else
    if confirmForce then ⟨[forcePushCmd branch], false⟩
    else ⟨[], false⟩

/-- C1: in the guarded commit-workflow variant, selecting force on a protected
branch is always blocked and reported and `git push --force` never executes;
but the repository's other commit-workflow variant
(src/src/workflows/commit-workflow.ts) executes the force push unguarded —
evaluated here at the failing input branch "develop". -/
theorem commitWorkflow_forceProtected :
    (∀ (branch : String) (confirm : Bool), isProtectedBranch branch = true →
      fixedPushFailure branch true .force confirm = ⟨[], true⟩
      ∧ fixedPushFailure branch false .force true = ⟨[], true⟩)
    ∧ (∀ (branch : String) (nonFF : Bool) (choice : PushChoice) (confirm : Bool),
        forcePushCmd branch ∈ (fixedPushFailure branch nonFF choice confirm).cmds →
          isProtectedBranch branch = false)
    ∧ legacyPushFailure "develop" true .force true = ⟨[forcePushCmd "develop"], false⟩ := by
  refine ⟨?_, ?_, by decide⟩
  · intro branch confirm h
    constructor
    · simp [fixedPushFailure, h]
    · simp [fixedPushFailure, h]
  · intro branch nonFF choice confirm hmem
    by_contra hne
    have hprot : isProtectedBranch branch = true := by
      cases h : isProtectedBranch branch
      · exact absurd h hne
      · rfl
    rcases nonFF with _ | _ <;> rcases choice with _ | _ | _ | _ <;>
      rcases confirm with _ | _ <;>
      simp [fixedPushFailure, hprot] at hmem

/-- Witness for commitWorkflow_forceProtected at branch "develop". -/
theorem commitWorkflow_forceProtected_witness :
    fixedPushFailure "develop" true .force true = ⟨[], true⟩
    ∧ fixedPushFailure "develop" false .force true = ⟨[], true⟩ :=
  commitWorkflow_forceProtected.1 "develop" true (by decide)

/-! ## config-manager.ts and config.ts : configuration model (claims C3, C8, C9) -/

/-- JSON values as relevant to the configuration files. -/
inductive JVal where
  | jstr : String → JVal
  | jbool : Bool → JVal
  | jnum : Int → JVal
  | jobj : List (String × JVal) → JVal

/-- Field lookup in a parsed JSON object (JSON.parse yields unique keys). -/
def lookupField (fields : List (String × JVal)) (k : String) : Option JVal :=
  match fields with
  | [] => none
  | (k2, v) :: rest => if k2 = k then some v else lookupField rest k

/-- The runtime shape of a resolved configuration. A value of none means the
property is absent/undefined; getConfigFromEnv can leave linearEnabled unset,
while a schema-parsed file always sets it (defaulting to true). -/
structure Config where
  googleAiKey : Option String
  githubToken : Option String
  linearApiKey : Option String
  linearEnabled : Option Bool
deriving DecidableEq

/-- zod `z.string().optional()`: absent is fine, present must be a string. -/
def parseStrField (fields : List (String × JVal)) (k : String) : Option (Option String) :=
  match lookupField fields k with
  | none => some none
  | some (.jstr s) => some (some s)
  | some _ => none

/-- zod `z.boolean().optional().default(true)` before the default is applied. -/
def parseBoolField (fields : List (String × JVal)) (k : String) : Option (Option Bool) :=
  match lookupField fields k with
  | none => some none
  | some (.jbool b) => some (some b)
  | some _ => none

/-- Embedding of `configSchema.parse` (src/config/config.ts): an object with
optional string fields, linearEnabled boolean defaulting to true; unknown
keys are stripped; a non-object or a wrong-typed field throws, modelled as
none. -/
def parseConfig (j : JVal) : Option Config :=
  match j with
  | .jobj fields =>
    match parseStrField fields "googleAiKey", parseStrField fields "githubToken",
        parseStrField fields "linearApiKey", parseBoolField fields "linearEnabled" with
    | some g, some t, some l, some e => some ⟨g, t, l, some (e.getD true)⟩
    | _, _, _, _ => none
  | _ => none

/-- State of one config file on disk: absent, unparseable JSON text, or JSON
content. -/
inductive ConfigFile where
  | absent
  | malformed
  | content : JVal → ConfigFile

/-- Embedding of `readConfigFile` (src/config/config-manager.ts): a missing
file is null; a JSON.parse or schema error is caught, warned about and
yields null. -/
def readConfigFile : ConfigFile → Option Config
  | .absent => none
  | .malformed => none
  | .content j => parseConfig j

/-- The five environment variables of ENV_TO_CONFIG. -/
structure Env where
  googleAiKeyVar : Option String
  ghTokenVar : Option String
  githubTokenVar : Option String
  linearApiKeyVar : Option String
  linearEnabledVar : Option String

/-- JS truthiness filter `if (value)`: unset and empty string are skipped. -/
def envTruthy : Option String → Option String
  | some s => if s = "" then none else some s
  | none => none

/-- JS `String.toLowerCase` as a per-character map. -/
def jsToLower (s : String) : String :=
  String.mk (s.data.map Char.toLower)

/-- Embedding of `getConfigFromEnv`: iterate ENV_TO_CONFIG in insertion order
(GOOGLE_AI_KEY, GH_TOKEN, GITHUB_TOKEN, LINEAR_API_KEY, LINEAR_ENABLED), so a
truthy GITHUB_TOKEN overwrites GH_TOKEN; LINEAR_ENABLED parses to the boolean
`value.toLowerCase() === "true" || value === "1"`; fields with no truthy
variable stay unset. -/
def getConfigFromEnv (e : Env) : Config where
  googleAiKey := envTruthy e.googleAiKeyVar
  githubToken :=
    match envTruthy e.githubTokenVar with
    | some s => some s
    | none => envTruthy e.ghTokenVar
  linearApiKey := envTruthy e.linearApiKeyVar
  linearEnabled :=
    match envTruthy e.linearEnabledVar with
    | some v => some (jsToLower v == "true" || v == "1")
    | none => none

/-- Embedding of `getConfig`: local file, else global file, else environment. -/
def getConfig (localFile globalFile : ConfigFile) (env : Env) : Config :=
  match readConfigFile localFile with
  | some c => c
  | none =>
    match readConfigFile globalFile with
    | some c => c
    | none => getConfigFromEnv env

/-- Embedding of `isLinearEnabled` (src/config/config-validation.ts):
`config.linearEnabled !== false`. -/
def isLinearEnabled (c : Config) : Bool :=
  c.linearEnabled != some false

/-- C3: getConfig resolution is strict first-match-wins over whole sources:
a project-local file that parses is returned verbatim regardless of the
global file and environment; a malformed local file behaves exactly like an
absent one; only with both files absent or unparseable is the result
synthesized from the environment. -/
theorem getConfig_precedence :
    (∀ (j : JVal) (c : Config) (g : ConfigFile) (e : Env), parseConfig j = some c →
      getConfig (.content j) g e = c)
    ∧ (∀ (g : ConfigFile) (e : Env), getConfig .malformed g e = getConfig .absent g e)
    ∧ (∀ (j : JVal) (g : ConfigFile) (e : Env), parseConfig j = none →
        getConfig (.content j) g e = getConfig .absent g e)
    ∧ (∀ (j : JVal) (c : Config) (e : Env), parseConfig j = some c →
        getConfig .absent (.content j) e = c)
    ∧ (∀ e : Env, getConfig .absent .absent e = getConfigFromEnv e) := by
  refine ⟨?_, fun g e => rfl, ?_, ?_, fun e => rfl⟩
  · intro j c g e h
    simp [getConfig, readConfigFile, h]
  · intro j g e h
    simp [getConfig, readConfigFile, h]
  · intro j c e h
    simp [getConfig, readConfigFile, h]

/-- Witness for getConfig_precedence: a local file wins verbatim over a
conflicting global file and environment. -/
theorem getConfig_precedence_witness :
    getConfig (.content (.jobj [("googleAiKey", .jstr "local")]))
        (.content (.jobj [("googleAiKey", .jstr "global")]))
        ⟨some "env", none, none, none, none⟩ =
      ⟨some "local", none, none, some true⟩ :=
  getConfig_precedence.1 _ _ _ _ rfl

theorem parseConfig_linearEnabled_default {fields : List (String × JVal)} {c : Config}
    (h : parseConfig (.jobj fields) = some c)
    (hl : lookupField fields "linearEnabled" = none) : c.linearEnabled = some true := by
  have hb : parseBoolField fields "linearEnabled" = some none := by
    rw [parseBoolField, hl]
  rw [parseConfig] at h
  split at h
  · rename_i g t l e hg ht hll he
    rw [hb] at he
    injection he with he2
    injection h with h2
    rw [← h2, ← he2]
    rfl
  · exact absurd h (by simp)

theorem parseConfig_linearEnabled_explicit {fields : List (String × JVal)} {c : Config}
    {b : Bool} (h : parseConfig (.jobj fields) = some c)
    (hl : lookupField fields "linearEnabled" = some (.jbool b)) :
    c.linearEnabled = some b := by
  have hb : parseBoolField fields "linearEnabled" = some (some b) := by
    rw [parseBoolField, hl]
  rw [parseConfig] at h
  split at h
  · rename_i g t l e hg ht hll he
    rw [hb] at he
    injection he with he2
    injection h with h2
    rw [← h2, ← he2]
    rfl
  · exact absurd h (by simp)

/-- C8 (amended): the effective linearEnabled is computed from the single
source selected by precedence. When that source is a parsed config file, an
absent field defaults to enabled and an explicit false disables; when both
files fall away, the environment variable disables exactly when it is set to
a non-empty value other than case-insensitive "true" or "1" (an empty value
is falsy and leaves the field unset, hence enabled). Explicit values in
non-selected sources have no effect (see isLinearEnabled_cex). -/
theorem isLinearEnabled_correct :
    (∀ e : Env, isLinearEnabled (getConfig .absent .absent e) = false ↔
      ∃ v, e.linearEnabledVar = some v ∧ v ≠ "" ∧ jsToLower v ≠ "true" ∧ v ≠ "1")
    ∧ (∀ (fields : List (String × JVal)) (c : Config) (g : ConfigFile) (e : Env),
        parseConfig (.jobj fields) = some c →
          lookupField fields "linearEnabled" = none →
          isLinearEnabled (getConfig (.content (.jobj fields)) g e) = true)
    ∧ (∀ (fields : List (String × JVal)) (c : Config) (g : ConfigFile) (e : Env),
        parseConfig (.jobj fields) = some c →
          lookupField fields "linearEnabled" = some (.jbool false) →
          isLinearEnabled (getConfig (.content (.jobj fields)) g e) = false) := by
  refine ⟨?_, ?_, ?_⟩
  · intro e
    show isLinearEnabled (getConfigFromEnv e) = false ↔ _
    cases hv : e.linearEnabledVar with
    | none => simp [isLinearEnabled, getConfigFromEnv, envTruthy, hv]
    | some v =>
      by_cases hve : v = ""
      · subst hve
        simp [isLinearEnabled, getConfigFromEnv, envTruthy, hv]
      · have hfield : (getConfigFromEnv e).linearEnabled =
            some (jsToLower v == "true" || v == "1") := by
          simp [getConfigFromEnv, envTruthy, hv, hve]
        rw [isLinearEnabled, hfield]
        cases hb : (jsToLower v == "true" || v == "1") with
        | true =>
          constructor
          · intro h
            exact absurd h (by simp)
          · rintro ⟨v2, hv2, -, ht, h1⟩
            injection hv2 with hveq
            subst hveq
            rcases (Bool.or_eq_true _ _).mp hb with h2 | h2
            · exact absurd (by simpa using h2) ht
            · exact absurd (by simpa using h2) h1
        | false =>
          constructor
          · intro _
            have h2 : (jsToLower v == "true") = false ∧ (v == "1") = false := by
              constructor
              · cases hx : (jsToLower v == "true")
                · rfl
                · rw [hx] at hb; simp at hb
              · cases hx : (v == "1")
                · rfl
                · rw [hx] at hb; simp at hb
            exact ⟨v, rfl, hve, by simpa using h2.1, by simpa using h2.2⟩
          · intro _
            simp
  · intro fields c g e hp hl
    have hc := parseConfig_linearEnabled_default hp hl
    have : getConfig (.content (.jobj fields)) g e = c := by
      simp [getConfig, readConfigFile, hp]
    rw [this, isLinearEnabled, hc]
    rfl
  · intro fields c g e hp hl
    have hc := parseConfig_linearEnabled_explicit hp hl
    have : getConfig (.content (.jobj fields)) g e = c := by
      simp [getConfig, readConfigFile, hp]
    rw [this, isLinearEnabled, hc]
    rfl

/-- C8 counterexample: the global file sets linearEnabled to false explicitly,
yet a parseable local file that leaves the field unset resolves first and the
default true wins — an explicit false from a source is overridden back to the
default, contradicting the claim. -/
theorem isLinearEnabled_cex :
    isLinearEnabled (getConfig (.content (.jobj []))
      (.content (.jobj [("linearEnabled", .jbool false)]))
      ⟨none, none, none, none, none⟩) = true := rfl

/-- Witness for isLinearEnabled_correct: an explicit false in the selected
(local) file disables, and the env clause at value "false" disables. -/
theorem isLinearEnabled_correct_witness :
    isLinearEnabled (getConfig (.content (.jobj [("linearEnabled", .jbool false)]))
        .absent ⟨none, none, none, none, none⟩) = false
    ∧ isLinearEnabled (getConfig .absent .absent
        ⟨none, none, none, none, some "false"⟩) = false := by
  constructor
  · exact isLinearEnabled_correct.2.2 _ ⟨none, none, none, some false⟩ _ _ rfl rfl
  · exact (isLinearEnabled_correct.1 ⟨none, none, none, none, some "false"⟩).mpr
      ⟨"false", rfl, by decide, by decide, by decide⟩

/-! ## config-manager.ts : setConfigValue / setConfigValues (claim C9) -/

/-- Keys of CONFIG_KEYS (src/config/config.ts). -/
inductive ConfigKey where
  | googleAiKey
  | githubToken
  | linearApiKey
  | linearEnabled
deriving DecidableEq

/-- Values passed to setConfigValue: a string for the key fields, a boolean
for linearEnabled (the only shapes the call sites produce). -/
inductive ConfigValue where
  | str : String → ConfigValue
  | bool : Bool → ConfigValue

/-- JS assignment `config[key] = value` for the matching value shapes; a
mismatched shape is unrepresentable in the typed Config and never occurs at
the call sites (commands/config.ts, utils/setup.ts). -/
def assignKey (c : Config) (k : ConfigKey) (v : ConfigValue) : Config :=
  match k, v with
  | .googleAiKey, .str s => { c with googleAiKey := some s }
  | .githubToken, .str s => { c with githubToken := some s }
  | .linearApiKey, .str s => { c with linearApiKey := some s }
  | .linearEnabled, .bool b => { c with linearEnabled := some b }
  | _, _ => c

/-- Patch for setConfigValues: fields present in the `values` object. -/
structure ConfigPatch where
  googleAiKey : Option String
  githubToken : Option String
  linearApiKey : Option String
  linearEnabled : Option Bool

/-- JS object spread `{ ...existingConfig, ...values }`. -/
def applyPatch (c : Config) (p : ConfigPatch) : Config where
  googleAiKey := match p.googleAiKey with | some v => some v | none => c.googleAiKey
  githubToken := match p.githubToken with | some v => some v | none => c.githubToken
  linearApiKey := match p.linearApiKey with | some v => some v | none => c.linearApiKey
  linearEnabled := match p.linearEnabled with | some v => some v | none => c.linearEnabled

/-- JSON.stringify of a config object: set fields serialize, absent ones are
omitted. -/
def configToJVal (c : Config) : JVal :=
  .jobj ((match c.googleAiKey with
      | some s => [("googleAiKey", JVal.jstr s)]
      | none => []) ++
    (match c.githubToken with
      | some s => [("githubToken", JVal.jstr s)]
      | none => []) ++
    (match c.linearApiKey with
      | some s => [("linearApiKey", JVal.jstr s)]
      | none => []) ++
    (match c.linearEnabled with
      | some b => [("linearEnabled", JVal.jbool b)]
      | none => []))

/-- State of the two config files on disk. -/
structure ConfigFS where
  localFile : ConfigFile
  globalFile : ConfigFile

/-- The `{}` fallback of `readConfigFile(...) || ({} as Config)`. -/
def emptyConfig : Config := ⟨none, none, none, none⟩

/-- Embedding of `setConfigValue`: read the global file (empty object when
absent or unreadable), assign the key, write back to the global path only. -/
def setConfigValue (fs : ConfigFS) (k : ConfigKey) (v : ConfigValue) : ConfigFS :=
  let existing := (readConfigFile fs.globalFile).getD emptyConfig
  { fs with globalFile := .content (configToJVal (assignKey existing k v)) }

/-- Embedding of `setConfigValues`: read the global file, spread the patch
over it, write back to the global path only. -/
def setConfigValues (fs : ConfigFS) (p : ConfigPatch) : ConfigFS :=
  let existing := (readConfigFile fs.globalFile).getD emptyConfig
  { fs with globalFile := .content (configToJVal (applyPatch existing p)) }

theorem parseConfig_configToJVal (c : Config) :
    parseConfig (configToJVal c) =
      some { c with linearEnabled := some (c.linearEnabled.getD true) } := by
  obtain ⟨g, t, l, e⟩ := c
  cases g <;> cases t <;> cases l <;> cases e <;>
    simp +decide [configToJVal, parseConfig, parseStrField, parseBoolField, lookupField]

theorem readConfigFile_linearEnabled {f : ConfigFile} {c : Config}
    (h : readConfigFile f = some c) : c.linearEnabled = some (c.linearEnabled.getD true) := by
  cases f with
  | absent => exact absurd h (by simp [readConfigFile])
  | malformed => exact absurd h (by simp [readConfigFile])
  | content j =>
    rw [readConfigFile] at h
    cases j with
    | jobj fields =>
      rw [parseConfig] at h
      split at h
      · injection h with h2
        rw [← h2]
        rfl
      · exact absurd h (by simp)
    | jstr s => exact absurd h (by simp [parseConfig])
    | jbool b => exact absurd h (by simp [parseConfig])
    | jnum n => exact absurd h (by simp [parseConfig])

theorem config_eta_linearEnabled {cfg : Config}
    (h : cfg.linearEnabled = some (cfg.linearEnabled.getD true)) :
    ({ cfg with linearEnabled := some (cfg.linearEnabled.getD true) } : Config) = cfg := by
  obtain ⟨g, t, l, e⟩ := cfg
  dsimp only at h ⊢
  rw [← h]

/-- C9 (amended): setConfigValue and setConfigValues write only the
user-global config file, never the project-local one, and when the existing
global file parses against the schema they use read-merge-write semantics —
every schema field present and not named in the key/patch keeps its previous
value in the written file. (A global file that is unreadable or fails the
schema is treated as empty, so its fields are not preserved: see
setConfigValue_cex.) -/
theorem setConfig_global_merge :
    (∀ (fs : ConfigFS) (p : ConfigPatch), (setConfigValues fs p).localFile = fs.localFile)
    ∧ (∀ (fs : ConfigFS) (k : ConfigKey) (v : ConfigValue),
        (setConfigValue fs k v).localFile = fs.localFile)
    ∧ (∀ (fs : ConfigFS) (p : ConfigPatch) (c : Config),
        readConfigFile fs.globalFile = some c →
          readConfigFile (setConfigValues fs p).globalFile = some (applyPatch c p)
          ∧ (p.googleAiKey = none → (applyPatch c p).googleAiKey = c.googleAiKey)
          ∧ (p.githubToken = none → (applyPatch c p).githubToken = c.githubToken)
          ∧ (p.linearApiKey = none → (applyPatch c p).linearApiKey = c.linearApiKey)
          ∧ (p.linearEnabled = none → (applyPatch c p).linearEnabled = c.linearEnabled))
    ∧ (∀ (fs : ConfigFS) (k : ConfigKey) (v : ConfigValue) (c : Config),
        readConfigFile fs.globalFile = some c →
          readConfigFile (setConfigValue fs k v).globalFile = some (assignKey c k v)
          ∧ (k ≠ .googleAiKey → (assignKey c k v).googleAiKey = c.googleAiKey)
          ∧ (k ≠ .githubToken → (assignKey c k v).githubToken = c.githubToken)
          ∧ (k ≠ .linearApiKey → (assignKey c k v).linearApiKey = c.linearApiKey)
          ∧ (k ≠ .linearEnabled → (assignKey c k v).linearEnabled = c.linearEnabled)) := by
  refine ⟨fun fs p => rfl, fun fs k v => rfl, ?_, ?_⟩
  · intro fs p c hread
    have hle : (applyPatch c p).linearEnabled = some ((applyPatch c p).linearEnabled.getD true) := by
      cases hp : p.linearEnabled with
      | some v => simp [applyPatch, hp]
      | none =>
        have := readConfigFile_linearEnabled hread
        simp only [applyPatch, hp]
        exact this
    refine ⟨?_, ?_, ?_, ?_, ?_⟩
    · show readConfigFile (.content (configToJVal
        (applyPatch ((readConfigFile fs.globalFile).getD emptyConfig) p))) = _
      rw [hread]
      show readConfigFile (.content (configToJVal (applyPatch c p))) = _
      rw [readConfigFile, parseConfig_configToJVal, config_eta_linearEnabled hle]
    · intro h; simp [applyPatch, h]
    · intro h; simp [applyPatch, h]
    · intro h; simp [applyPatch, h]
    · intro h; simp [applyPatch, h]
  · intro fs k v c hread
    have hle : (assignKey c k v).linearEnabled =
        some ((assignKey c k v).linearEnabled.getD true) := by
      have hc := readConfigFile_linearEnabled hread
      cases k <;> cases v <;> simp [assignKey] <;> exact hc
    refine ⟨?_, ?_, ?_, ?_, ?_⟩
    · show readConfigFile (.content (configToJVal
        (assignKey ((readConfigFile fs.globalFile).getD emptyConfig) k v))) = _
      rw [hread]
      show readConfigFile (.content (configToJVal (assignKey c k v))) = _
      rw [readConfigFile, parseConfig_configToJVal, config_eta_linearEnabled hle]
    · intro h
      cases k <;> cases v <;> first
        | exact absurd rfl h
        | simp [assignKey]
    · intro h
      cases k <;> cases v <;> first
        | exact absurd rfl h
        | simp [assignKey]
    · intro h
      cases k <;> cases v <;> first
        | exact absurd rfl h
        | simp [assignKey]
    · intro h
      cases k <;> cases v <;> first
        | exact absurd rfl h
        | simp [assignKey]

/-- C9 counterexample: the existing global file contains githubToken "tok" but
fails the schema (googleAiKey is a boolean), so setConfigValue treats it as
empty: after setting linearApiKey, the written global file no longer contains
a githubToken field, although that field was present and not named. -/
theorem setConfigValue_cex :
    (setConfigValue
        ⟨.absent, .content (.jobj [("githubToken", .jstr "tok"), ("googleAiKey", .jbool true)])⟩
        .linearApiKey (.str "k")).globalFile =
      .content (.jobj [("linearApiKey", .jstr "k")]) := rfl

/-- Witness for setConfig_global_merge: merging a linearApiKey patch into a
parseable global file keeps its githubToken. -/
theorem setConfig_global_merge_witness :
    readConfigFile (setConfigValues ⟨.absent, .content (.jobj [("githubToken", .jstr "t")])⟩
        ⟨none, none, some "k", none⟩).globalFile =
      some (applyPatch ⟨none, some "t", none, some true⟩ ⟨none, none, some "k", none⟩) :=
  (setConfig_global_merge.2.2.1 ⟨.absent, .content (.jobj [("githubToken", .jstr "t")])⟩
    ⟨none, none, some "k", none⟩ ⟨none, some "t", none, some true⟩ (by decide)).1

/-! ## ai.ts : generateCommitMessage / generatePRContent (claim C2) -/

/-- Result of one execSync call: captured stdout or a thrown error. -/
inductive ExecResult where
  | ok : String → ExecResult
  | err : String → ExecResult
deriving DecidableEq

/-- Runtime shape of commit_message_schema. -/
structure CommitMessage where
  type : String
  scope : Option String
  description : String
deriving DecidableEq

/-- The commit_type enum of ai.ts. -/
def commitTypes : List String :=
  ["feat", "fix", "chore", "docs", "improve", "change", "hotfix"]

/-- Runtime shape of pr_content_schema. -/
structure PRContent where
  title : String
  description : String
  linear_comment : Option String
deriving DecidableEq

/-- Embedding of commit_message_schema.parse on a JSON value (after the
JSON.parse preprocess): enum type, optional string scope, nonempty
description; any violation throws, modelled as none. -/
def parseCommitMessage (j : JVal) : Option CommitMessage :=
  match j with
  | .jobj fields =>
    match lookupField fields "type", lookupField fields "description" with
    | some (.jstr ty), some (.jstr d) =>
      if commitTypes.contains ty then
        if d = "" then none
        else
          match lookupField fields "scope" with
          | none => some ⟨ty, none, d⟩
          | some (.jstr s) => some ⟨ty, some s, d⟩
          | some _ => none
      else none
    | _, _ => none
  | _ => none

/-- Embedding of pr_content_schema.parse: title of 1..72 characters, nonempty
description, optional string linear_comment. -/
def parsePRContent (j : JVal) : Option PRContent :=
  match j with
  | .jobj fields =>
    match lookupField fields "title", lookupField fields "description" with
    | some (.jstr ti), some (.jstr d) =>
      if ti.length < 1 then none
      else if 72 < ti.length then none
      else if d = "" then none
      else
        match lookupField fields "linear_comment" with
        | none => some ⟨ti, d, none⟩
        | some (.jstr lc) => some ⟨ti, d, some lc⟩
        | some _ => none
    | _, _ => none
  | _ => none

/-- Outcomes of the AI service interactions during one generation call:
getAI initialization (throws when no key is configured), the streaming
attempt, and the non-streaming fallback. A call outcome is an error, a
non-JSON text (none) or a JSON value. -/
structure AIEnv where
  aiInit : Except String Unit
  streamResult : Except String (Option JVal)
  fallbackResult : Except String (Option JVal)

/-- Shell and AI context of one generateCommitMessage run. -/
structure CommitGenEnv where
  diffStat : ExecResult
  diffBody : ExecResult
  ai : AIEnv

/-- The non-streaming fallback path shared shape: a fallback error or a
validation failure is caught by the outer catch and yields null. -/
def commitFallback (ai : AIEnv) : Option CommitMessage :=
  match ai.fallbackResult with
  | .error _ => none
  | .ok none => none
  | .ok (some j) => parseCommitMessage j

/-- Embedding of `generateCommitMessage` (src/workflows/ai.ts): the two
`execSync("git diff --cached ...")` calls run before the try block, so their
exceptions propagate; inside the try, any streaming failure (including
schema validation) falls back once to non-streaming, and any remaining
failure returns null. -/
def generateCommitMessage (env : CommitGenEnv) : Except String (Option CommitMessage) :=
  match env.diffStat with
  | .err e => .error e
  | .ok _ =>
    match env.diffBody with
    | .err e => .error e
    | .ok _ =>
      .ok (match env.ai.aiInit with
        | .error _ => none
        | .ok _ =>
          match env.ai.streamResult with
          | .ok (some j) =>
            match parseCommitMessage j with
            | some c => some c
            | none => commitFallback env.ai
          | .ok none => commitFallback env.ai
          | .error _ => commitFallback env.ai)

/-- Shell and AI context of one generatePRContent run: diff stat, diff body,
commit log and commit count against the base branch. -/
structure PRGenEnv where
  diffStat : ExecResult
  diffBody : ExecResult
  commitLog : ExecResult
  commitCount : ExecResult
  ai : AIEnv

def prFallback (ai : AIEnv) : Option PRContent :=
  match ai.fallbackResult with
  | .error _ => none
  | .ok none => none
  | .ok (some j) => parsePRContent j

/-- Embedding of `generatePRContent` (src/workflows/ai.ts): four execSync
calls before the try block, then the same streaming/fallback/null shape. -/
def generatePRContent (env : PRGenEnv) : Except String (Option PRContent) :=
  match env.diffStat with
  | .err e => .error e
  | .ok _ =>
    match env.diffBody with
    | .err e => .error e
    | .ok _ =>
      match env.commitLog with
      | .err e => .error e
      | .ok _ =>
        match env.commitCount with
        | .err e => .error e
        | .ok _ =>
          .ok (match env.ai.aiInit with
            | .error _ => none
            | .ok _ =>
              match env.ai.streamResult with
              | .ok (some j) =>
                match parsePRContent j with
                | some c => some c
                | none => prFallback env.ai
              | .ok none => prFallback env.ai
              | .error _ => prFallback env.ai)

theorem parseCommitMessage_valid {j : JVal} {c : CommitMessage}
    (h : parseCommitMessage j = some c) :
    commitTypes.contains c.type = true ∧ c.description ≠ "" := by
  unfold parseCommitMessage at h
  split at h
  · split at h
    · rename_i ty d hty hd
      split at h
      · rename_i hcontains
        split at h
        · exact absurd h (by simp)
        · rename_i hdesc
          split at h
          · injection h with h2
            rw [← h2]
            exact ⟨hcontains, hdesc⟩
          · injection h with h2
            rw [← h2]
            exact ⟨hcontains, hdesc⟩
          · exact absurd h (by simp)
      · exact absurd h (by simp)
    · exact absurd h (by simp)
  · exact absurd h (by simp)

theorem parsePRContent_valid {j : JVal} {c : PRContent}
    (h : parsePRContent j = some c) :
    1 ≤ c.title.length ∧ c.title.length ≤ 72 ∧ c.description ≠ "" := by
  unfold parsePRContent at h
  split at h
  · split at h
    · rename_i ti d hti hd
      split at h
      · exact absurd h (by simp)
      · rename_i hlen1
        split at h
        · exact absurd h (by simp)
        · rename_i hlen2
          split at h
          · exact absurd h (by simp)
          · rename_i hdesc
            split at h
            · injection h with h2
              rw [← h2]
              exact ⟨Nat.le_of_not_lt hlen1, Nat.le_of_not_lt hlen2, hdesc⟩
            · injection h with h2
              rw [← h2]
              exact ⟨Nat.le_of_not_lt hlen1, Nat.le_of_not_lt hlen2, hdesc⟩
            · exact absurd h (by simp)
    · exact absurd h (by simp)
  · exact absurd h (by simp)

theorem commitFallback_valid {ai : AIEnv} {c : CommitMessage}
    (h : commitFallback ai = some c) :
    commitTypes.contains c.type = true ∧ c.description ≠ "" := by
  unfold commitFallback at h
  split at h
  · exact absurd h (by simp)
  · exact absurd h (by simp)
  · exact parseCommitMessage_valid h

theorem prFallback_valid {ai : AIEnv} {c : PRContent}
    (h : prFallback ai = some c) :
    1 ≤ c.title.length ∧ c.title.length ≤ 72 ∧ c.description ≠ "" := by
  unfold prFallback at h
  split at h
  · exact absurd h (by simp)
  · exact absurd h (by simp)
  · exact parsePRContent_valid h

/-- C2 (amended): provided the initial context-gathering shell commands
succeed, generateCommitMessage and generatePRContent never let an exception
cross the function boundary — they return a schema-valid value or null;
exceptions of the initial shell commands themselves do propagate (original
claim refuted at generateAI_cex). -/
theorem generateAI_no_throw :
    (∀ (env : CommitGenEnv) (s1 s2 : String),
      env.diffStat = .ok s1 → env.diffBody = .ok s2 →
      ∃ r, generateCommitMessage env = .ok r ∧
        ∀ c, r = some c → commitTypes.contains c.type = true ∧ c.description ≠ "")
    ∧ (∀ (env : PRGenEnv) (s1 s2 s3 s4 : String),
        env.diffStat = .ok s1 → env.diffBody = .ok s2 →
        env.commitLog = .ok s3 → env.commitCount = .ok s4 →
        ∃ r, generatePRContent env = .ok r ∧
          ∀ c, r = some c →
            1 ≤ c.title.length ∧ c.title.length ≤ 72 ∧ c.description ≠ "") := by
  constructor
  · intro env s1 s2 h1 h2
    refine ⟨_, by rw [generateCommitMessage, h1, h2], ?_⟩
    intro c hc
    cases hai : env.ai.aiInit with
    | error e =>
      simp only [hai] at hc
      exact absurd hc (by simp)
    | ok u =>
      simp only [hai] at hc
      cases hs : env.ai.streamResult with
      | error e =>
        simp only [hs] at hc
        exact commitFallback_valid hc
      | ok jo =>
        simp only [hs] at hc
        cases jo with
        | none => exact commitFallback_valid hc
        | some j =>
          cases hp : parseCommitMessage j with
          | some c2 =>
            simp only [hp] at hc
            injection hc with hc2
            exact hc2 ▸ parseCommitMessage_valid hp
          | none =>
            simp only [hp] at hc
            exact commitFallback_valid hc
  · intro env s1 s2 s3 s4 h1 h2 h3 h4
    refine ⟨_, by rw [generatePRContent, h1, h2, h3, h4], ?_⟩
    intro c hc
    cases hai : env.ai.aiInit with
    | error e =>
      simp only [hai] at hc
      exact absurd hc (by simp)
    | ok u =>
      simp only [hai] at hc
      cases hs : env.ai.streamResult with
      | error e =>
        simp only [hs] at hc
        exact prFallback_valid hc
      | ok jo =>
        simp only [hs] at hc
        cases jo with
        | none => exact prFallback_valid hc
        | some j =>
          cases hp : parsePRContent j with
          | some c2 =>
            simp only [hp] at hc
            injection hc with hc2
            exact hc2 ▸ parsePRContent_valid hp
          | none =>
            simp only [hp] at hc
            exact prFallback_valid hc

/-- C2 counterexample: a failing initial `git diff --cached --stat` (for
instance outside a git repository) escapes generateCommitMessage as an
exception instead of a null return. -/
theorem generateAI_cex :
    generateCommitMessage
      ⟨.err "fatal: not a git repository", .ok "", ⟨.ok (), .ok none, .ok none⟩⟩ =
      .error "fatal: not a git repository" := rfl

/-- Witness for generateAI_no_throw at a concrete run whose streamed response
is the JSON commit message. -/
theorem generateAI_no_throw_witness :
    ∃ r, generateCommitMessage
        ⟨.ok "1 file changed", .ok "diff",
          ⟨.ok (), .ok (some (.jobj [("type", .jstr "feat"), ("description", .jstr "add x")])),
            .ok none⟩⟩ = .ok r ∧
      ∀ c, r = some c → commitTypes.contains c.type = true ∧ c.description ≠ "" :=
  generateAI_no_throw.1 _ _ _ rfl rfl

/-! ## release-workflow.ts : getNextReleaseIncrement (claim C5) -/

/-- The filter pattern `release/{date}.` of getNextReleaseIncrement. -/
def releasePat (date : List Char) : List Char :=
  'r' :: 'e' :: 'l' :: 'e' :: 'a' :: 's' :: 'e' :: '/' :: (date ++ ['.'])

/-- The literal `release/` of the extraction regex. -/
def relChars : List Char :=
  ['r', 'e', 'l', 'e', 'a', 's', 'e', '/']

/-- JS parseInt on a digit run. -/
def natOfDigits (l : List Char) : Nat :=
  l.foldl (fun acc c => acc * 10 + (c.toNat - '0'.toNat)) 0

/-- The `\d+\.(\d+)` part of the extraction regex, tried right after the
literal `release/`: a maximal nonempty digit run, a dot, then the captured
maximal nonempty digit run. -/
def relRegexAfter (cs : List Char) : Option Nat :=
  let ds := cs.takeWhile Char.isDigit
  if ds.isEmpty then none
  else
    match cs.dropWhile Char.isDigit with
    | [] => none
    | c :: r2 =>
      if c = '.' then
        let inc := r2.takeWhile Char.isDigit
        if inc.isEmpty then none else some (natOfDigits inc)
      else none

/-- Drop the eight characters of the matched `release/` literal; only applied
after startsWithList relChars has succeeded. -/
def drop8 : List Char → List Char
  | _ :: _ :: _ :: _ :: _ :: _ :: _ :: _ :: t => t
  | _ => []

/-- Leftmost match of the regex `release\/\d+\.(\d+)` in a branch line,
returning parseInt of the captured increment. -/
def scanRel : List Char → Option Nat
  | [] => none
  | c :: rest =>
    if startsWithList relChars (c :: rest) then
      match relRegexAfter (drop8 (c :: rest)) with
      | some n => some n
      | none => scanRel rest
    else scanRel rest

/-- The per-branch increment of getNextReleaseIncrement:
`match ? parseInt(match[1]) : 0`. -/
def firstIncrement (b : List Char) : Nat :=
  (scanRel b).getD 0

/-- Embedding of `getNextReleaseIncrement` (src/workflows/release-workflow.ts)
over the list of `git branch -r` output lines: filter the lines containing
`release/{date}.`, extract each line's first regex increment (0 when the
regex does not match), and return the maximum plus one — 1 when no line
passes the filter. `Math.max(...)` over the nonempty Nat list equals the
fold with initial value 0. -/
def getNextReleaseIncrementL (date : List Char) (branches : List (List Char)) : Nat :=
  let pat := releasePat date
  let release_branches := branches.filter fun b => jsIncludes b pat
  if release_branches.isEmpty then 1
  else (release_branches.map firstIncrement).foldl max 0 + 1

/-- String-level wrapper of getNextReleaseIncrementL. -/
def getNextReleaseIncrement (date : String) (branches : List String) : Nat :=
  getNextReleaseIncrementL date.data (branches.map String.data)

/-- A canonical remote release line as printed by `git branch -r`:
two spaces, `origin/release/`, the date, a dot, the increment. -/
def renderReleaseLine (di inc : List Char) : List Char :=
  ' ' :: ' ' :: 'o' :: 'r' :: 'i' :: 'g' :: 'i' :: 'n' :: '/' ::
    'r' :: 'e' :: 'l' :: 'e' :: 'a' :: 's' :: 'e' :: '/' :: (di ++ '.' :: inc)

/-- Spec-side next increment over structured release lines (date, increment):
the maximum increment among lines for date d plus 1, or 1 when none exists. -/
def specNextIncrement (d : List Char) (items : List (List Char × List Char)) : Nat :=
  let ns := (items.filter fun it => it.1 == d).map fun it => natOfDigits it.2
  if ns.isEmpty then 1 else ns.foldl max 0 + 1

theorem jsIncludes_noR {hay p : List Char} (h : ∀ c ∈ hay, c ≠ 'r') :
    jsIncludes hay ('r' :: p) = false := by
  induction hay with
  | nil => rfl
  | cons c t ih =>
    have hc : ¬('r' = c) := fun he => (h c (by simp)) he.symm
    simp only [jsIncludes, startsWithList, if_neg hc, Bool.false_or]
    exact ih fun x hx => h x (by simp [hx])

theorem prefix_digits {d di inc : List Char} (hd : ∀ c ∈ d, c.isDigit = true)
    (hdi : ∀ c ∈ di, c.isDigit = true) :
    startsWithList (d ++ ['.']) (di ++ '.' :: inc) = true ↔ d = di := by
  induction d generalizing di with
  | nil =>
    cases di with
    | nil => simp [startsWithList]
    | cons y di' =>
      have hy : y.isDigit = true := hdi y (by simp)
      have hyne : ¬(('.' : Char) = y) := by
        intro he; rw [← he] at hy; exact absurd hy (by decide)
      simp [startsWithList, hyne]
  | cons x d' ih =>
    cases di with
    | nil =>
      have hx : x.isDigit = true := hd x (by simp)
      have hxne : ¬(x = '.') := by
        intro he; rw [he] at hx; exact absurd hx (by decide)
      simp [startsWithList, hxne]
    | cons y di' =>
      by_cases hxy : x = y
      · subst hxy
        have ihd : ∀ c ∈ d', c.isDigit = true := fun c hc => hd c (by simp [hc])
        have ihdi : ∀ c ∈ di', c.isDigit = true := fun c hc => hdi c (by simp [hc])
        simp [startsWithList, ih ihd ihdi]
      · simp [startsWithList, hxy]

theorem jsIncludes_render {d di inc : List Char} (hd : ∀ c ∈ d, c.isDigit = true)
    (hdi : ∀ c ∈ di, c.isDigit = true) (hinc : ∀ c ∈ inc, c.isDigit = true) :
    jsIncludes (renderReleaseLine di inc) (releasePat d) = true ↔ d = di := by
  have hnoR : ∀ c ∈ di ++ '.' :: inc, c ≠ 'r' := by
    intro c hc he
    subst he
    rcases List.mem_append.mp hc with h | h
    · exact absurd (hdi _ h) (by decide)
    · rcases List.mem_cons.mp h with h2 | h2
      · exact absurd h2 (by decide)
      · exact absurd (hinc _ h2) (by decide)
  have hrest : jsIncludes (di ++ '.' :: inc) (releasePat d) = false := by
    rw [releasePat]
    exact jsIncludes_noR hnoR
  rw [renderReleaseLine, releasePat]
  simp +decide only [jsIncludes, startsWithList, if_true, if_false, Bool.false_or]
  rw [show ('r' :: 'e' :: 'l' :: 'e' :: 'a' :: 's' :: 'e' :: '/' :: (d ++ ['.'])) =
    releasePat d from rfl]
  simp only [hrest, Bool.or_false]
  exact prefix_digits hd hdi

theorem scanRel_render {di inc : List Char} (hdi1 : di ≠ []) (hdi : ∀ c ∈ di, c.isDigit = true)
    (hinc1 : inc ≠ []) (hinc : ∀ c ∈ inc, c.isDigit = true) :
    scanRel (renderReleaseLine di inc) = some (natOfDigits inc) := by
  have hdot : ('.' : Char).isDigit = false := by decide
  have hrel : relRegexAfter (di ++ '.' :: inc) = some (natOfDigits inc) := by
    simp only [relRegexAfter]
    rw [takeWhile_block hdi hdot, dropWhile_block hdi hdot]
    simp [hdi1, hinc1, takeWhile_all hinc]
  rw [renderReleaseLine]
  simp +decide only [scanRel, startsWithList, relChars, drop8, if_true, if_false, hrel]

/-- C5 (amended): over canonical `git branch -r` release lines
`  origin/release/<date>.<n>` with digit dates and increments, the computed
next increment for a digit date d is the maximum n over lines with date d
plus 1, and 1 when no line for date d exists. The original claim, quantified
over arbitrary branch-name strings, fails because the extraction regex takes
the first `release/<digits>.<digits>` occurrence of the line even when the
`release/{d}.` filter matched a later occurrence: see
getNextReleaseIncrement_cex. -/
theorem getNextReleaseIncrement_correct :
    ∀ (d : List Char) (items : List (List Char × List Char)),
      d ≠ [] → (∀ c ∈ d, c.isDigit = true) →
      (∀ it ∈ items, it.1 ≠ [] ∧ (∀ c ∈ it.1, c.isDigit = true) ∧
        it.2 ≠ [] ∧ (∀ c ∈ it.2, c.isDigit = true)) →
      getNextReleaseIncrementL d (items.map fun it => renderReleaseLine it.1 it.2) =
        specNextIncrement d items := by
  intro d items hd1 hd hitems
  have hfilter : (items.map fun it => renderReleaseLine it.1 it.2).filter
      (fun b => jsIncludes b (releasePat d)) =
      (items.filter fun it => it.1 == d).map fun it => renderReleaseLine it.1 it.2 := by
    rw [List.filter_map]
    congr 1
    apply List.filter_congr
    intro it hit
    obtain ⟨hne, hdig, hne2, hdig2⟩ := hitems it hit
    show jsIncludes (renderReleaseLine it.1 it.2) (releasePat d) = (it.1 == d)
    cases hbe : (it.1 == d) with
    | true =>
      have heq : it.1 = d := by simpa using hbe
      exact (jsIncludes_render hd hdig hdig2).mpr heq.symm
    | false =>
      have hne3 : ¬(it.1 = d) := by simpa using hbe
      rw [Bool.eq_false_iff]
      intro habs
      exact hne3 ((jsIncludes_render hd hdig hdig2).mp habs).symm
  have hmapinc : ((items.filter fun it => it.1 == d).map fun it =>
        renderReleaseLine it.1 it.2).map firstIncrement =
      (items.filter fun it => it.1 == d).map fun it => natOfDigits it.2 := by
    rw [List.map_map]
    apply List.map_congr_left
    intro it hit
    have hmem : it ∈ items := List.mem_of_mem_filter hit
    obtain ⟨hne, hdig, hne2, hdig2⟩ := hitems it hmem
    show firstIncrement (renderReleaseLine it.1 it.2) = natOfDigits it.2
    rw [firstIncrement, scanRel_render hne hdig hne2 hdig2]
    rfl
  simp only [getNextReleaseIncrementL, specNextIncrement, hfilter, hmapinc]
  cases hflt : (items.filter fun it => it.1 == d) with
  | nil => rfl
  | cons a as => rfl

/-- C5 counterexample: the line "release/20240101.9-release/20250101.1"
passes the filter for date 20250101 (it contains "release/20250101.") but
the regex extracts the increment 9 of its first release segment, so the code
returns 10 where the claim demands max{1} + 1 = 2. -/
theorem getNextReleaseIncrement_cex :
    getNextReleaseIncrement "20250101" ["release/20240101.9-release/20250101.1"] = 10 ∧
      getNextReleaseIncrement "20250101" ["release/20240101.9-release/20250101.1"] ≠ 2 ∧
      specNextIncrement "20250101".data [("20250101".data, "1".data)] = 2 :=
  ⟨by decide, by decide, by decide⟩

/-- Witness for getNextReleaseIncrement_correct on two canonical lines. -/
theorem getNextReleaseIncrement_correct_witness :
    getNextReleaseIncrementL "20250101".data
        ([(("20250101".data : List Char), ("2".data : List Char)),
          (("20241231".data : List Char), ("7".data : List Char))].map
          fun it => renderReleaseLine it.1 it.2) =
      specNextIncrement "20250101".data
        [("20250101".data, "2".data), ("20241231".data, "7".data)] :=
  getNextReleaseIncrement_correct _ _ (by decide) (by decide) (by decide)

end Flow
